import Mathlib

/-!
# Verification of the cookbook-app recipe persistence module

Shallow embedding of `src/backend/index.js` (the refactored recipe API:
`validateRecipe`, `getRecipes`, `addRecipe`, `updateRecipe`, `deleteRecipe`)
and of `src/backend/fileStorage.js` (`FileStorage.getRecipes`).

JavaScript values reaching this module are strings, arrays, numbers,
booleans, `null`, `undefined`; recipe records are objects, modelled as
association lists of (key, value) pairs in insertion order (the records
produced by this module never carry a duplicate key).  A thrown JS
`TypeError` (from calling `.trim()` on a non-string) is modelled with
`Except String`.
-/

/-- A JavaScript value, as far as this module inspects one. -/
inductive JsVal where
  | vundefined : JsVal
  | vnull : JsVal
  | vbool : Bool → JsVal
  | vnum : Int → JsVal
  | vstr : String → JsVal
  | varr : List JsVal → JsVal

/-- A JavaScript object: fields in insertion order. -/
abbrev JsObj := List (String × JsVal)

/-- Property access returning `none` for an absent key (first occurrence wins,
matching lookup on the key-unique objects this module builds). -/
def lookupKey : JsObj → String → Option JsVal
  | [], _ => none
  | (k, v) :: rest, key => if k = key then some v else lookupKey rest key

/-- `obj[key]`: absent properties read as `undefined` in JS. -/
def getProp (r : JsObj) (key : String) : JsVal :=
  (lookupKey r key).getD .vundefined

/-- Keys of an object. -/
def keysOf (r : JsObj) : List String := r.map Prod.fst

/-- JS `String.prototype.trim`: strip whitespace from both ends (ASCII
whitespace, which coincides with JS on the module's data). -/
def jsTrim (s : String) : String :=
  ⟨(((s.data.dropWhile Char.isWhitespace).reverse).dropWhile
      Char.isWhitespace).reverse⟩

/-- JS `String.prototype.toLowerCase` (ASCII lowercasing, which coincides
with JS on the module's data). -/
def jsLower (s : String) : String :=
  ⟨s.data.map Char.toLower⟩

/-- `s.trim().toLowerCase()` on a string: the name normalization every
operation of the module uses for comparisons. -/
def normStr (s : String) : String := jsLower (jsTrim s)

/-- `v.trim().toLowerCase()`; throws a `TypeError` when `v` is not a string,
exactly as the JS property access `v.trim` does. -/
def jsTrimLower : JsVal → Except String String
  | .vstr s => .ok (normStr s)
  | _ => .error "TypeError: v.trim is not a function"

/-- The normalized (trimmed, lowercased) name of a record, when its `name`
field is a string. -/
def normName (r : JsObj) : Option String :=
  match getProp r "name" with
  | .vstr s => some (normStr s)
  | _ => none

theorem jsTrimLower_name_eq_normName (r : JsObj) :
    ∀ x, jsTrimLower (getProp r "name") = .ok x ↔ normName r = some x := by
  intro x
  unfold normName
  cases getProp r "name" <;> simp [jsTrimLower]

/-! ## The recipe schema (`recipeSchema` in index.js) -/

/-- The `type` of a schema rule: `"string"` or `"array"`. -/
inductive FieldType where
  | fstring : FieldType
  | farray : FieldType
deriving DecidableEq

/-- One schema rule: `{ type, required }`. -/
structure Rule where
  type : FieldType
  required : Bool
deriving DecidableEq

/-- `recipeSchema` from index.js, in the object's key-insertion order
(the order `for (const key in recipeSchema)` iterates). -/
def recipeSchema : List (String × Rule) :=
  [("name", ⟨.fstring, true⟩),
   ("ingredients", ⟨.farray, true⟩),
   ("instructions", ⟨.fstring, true⟩),
   ("category", ⟨.fstring, false⟩),
   ("tags", ⟨.farray, false⟩)]

/-- The five schema key names. -/
def schemaKeys : List String :=
  ["name", "ingredients", "instructions", "category", "tags"]

/-- `typeof v === "string"` / `Array.isArray(v)` according to the rule type. -/
def typeMatches : FieldType → JsVal → Bool
  | .fstring, .vstr _ => true
  | .farray, .varr _ => true
  | _, _ => false

/-- The empty default used by `validateRecipe`: `""` or `[]`. -/
def zeroVal : FieldType → JsVal
  | .fstring => .vstr ""
  | .farray => .varr []

/-! ## `validateRecipe` (index.js, lines 51-76) -/

/-- The value `validateRecipe` assigns for one schema key, or `none` when
validation fails (required key absent in creation mode).  Mirrors the body of
the `for (const key in recipeSchema)` loop. -/
def fieldValue (recipe : JsObj) (key : String) (rule : Rule)
    (isUpdate : Bool) : Option JsVal :=
  match lookupKey recipe key with
  | some v => some (if typeMatches rule.type v then v else zeroVal rule.type)
  | none =>
    if rule.required && !isUpdate then none
    else some (zeroVal rule.type)

/-- The loop of `validateRecipe` over (a suffix of) the schema, building the
`validated` object in schema-key order. -/
def validateFields (schema : List (String × Rule)) (recipe : JsObj)
    (isUpdate : Bool) : Option JsObj :=
  match schema with
  | [] => some []
  | (key, rule) :: rest =>
    match fieldValue recipe key rule isUpdate with
    | none => none
    | some v =>
      match validateFields rest recipe isUpdate with
      | none => none
      | some tail => some ((key, v) :: tail)

/-- `validateRecipe(recipe, isUpdate)` from index.js: keeps only schema keys,
fails (returns `null`) when a required key is absent in creation mode,
defaults wrong-typed and absent-optional keys to `""` / `[]`. -/
def validateRecipe (recipe : JsObj) (isUpdate : Bool := false) : Option JsObj :=
  validateFields recipeSchema recipe isUpdate

/-! ## The service operations (index.js)

The storage backend is modelled by the collection it holds (`List JsObj`);
`getRecipes()` wraps a non-array backend result to `[]`, so at service level
the collection is always a list, and a successful `saveRecipes` replaces it.
Operations return `Except` to model a thrown `TypeError` from `.trim()` on a
non-string name; otherwise they return the boolean result together with the
collection as persisted after the call. -/

/-- `recipes.some((r) => r.name.trim().toLowerCase() ===
recipe.name.trim().toLowerCase())` — the duplicate check of `addRecipe`,
with JS left-to-right evaluation and short-circuiting. -/
def someNameMatches (recipes : List JsObj) (recipe : JsObj) :
    Except String Bool :=
  match recipes with
  | [] => .ok false
  | r :: rest =>
    match jsTrimLower (getProp r "name") with
    | .error e => .error e
    | .ok rn =>
      match jsTrimLower (getProp recipe "name") with
      | .error e => .error e
      | .ok cn => if rn = cn then .ok true else someNameMatches rest recipe

/-- `addRecipe(recipe)` from index.js (lines 112-127): duplicate check,
validation, append, persist. -/
def addRecipe (store : List JsObj) (recipe : JsObj) :
    Except String (Bool × List JsObj) :=
  match someNameMatches store recipe with
  | .error e => .error e
  | .ok true => .ok (false, store)
  | .ok false =>
    match validateRecipe recipe with
    | none => .ok (false, store)
    | some validated => .ok (true, store ++ [validated])

/-- `recipes.findIndex((r) => r.name.trim().toLowerCase() ===
recipeName.trim().toLowerCase())` — `none` models index `-1`. -/
def findIndexName (recipes : List JsObj) (recipeName : String) :
    Except String (Option Nat) :=
  match recipes with
  | [] => .ok none
  | r :: rest =>
    match jsTrimLower (getProp r "name") with
    | .error e => .error e
    | .ok rn =>
      if rn = normStr recipeName then .ok (some 0)
      else
        match findIndexName rest recipeName with
        | .error e => .error e
        | .ok o => .ok (o.map (· + 1))

/-- The loop building `allowedUpdates` in `updateRecipe`, over (a suffix of)
the schema: schema keys present in the update whose value has the right
type, in schema order. -/
def allowedUpdatesOn (schema : List (String × Rule)) (updatedRecipe : JsObj) :
    JsObj :=
  schema.filterMap fun kr =>
    match lookupKey updatedRecipe kr.1 with
    | some v => if typeMatches kr.2.type v then some (kr.1, v) else none
    | none => none

/-- The `allowedUpdates` object built by `updateRecipe`. -/
def allowedUpdates (updatedRecipe : JsObj) : JsObj :=
  allowedUpdatesOn recipeSchema updatedRecipe

/-- Object spread `{ ...base, ...upd }`: keys of `base` keep their position
(value overridden when `upd` has the key), keys only in `upd` are appended in
order.  Faithful for the key-unique objects this module builds. -/
def spreadMerge (base upd : JsObj) : JsObj :=
  (base.map fun kv =>
    match lookupKey upd kv.1 with
    | some w => (kv.1, w)
    | none => kv)
  ++ upd.filter fun kv => !(keysOf base).contains kv.1

/-- `updateRecipe(recipeName, updatedRecipe)` from index.js (lines 140-163):
locate by normalized name, filter the update to well-typed schema keys, merge
with object spread, persist. -/
def updateRecipe (store : List JsObj) (recipeName : String)
    (updatedRecipe : JsObj) : Except String (Bool × List JsObj) :=
  match findIndexName store recipeName with
  | .error e => .error e
  | .ok none => .ok (false, store)
  | .ok (some idx) =>
    .ok (true,
      store.set idx (spreadMerge (store.getD idx []) (allowedUpdates updatedRecipe)))

/-- `recipes.filter((r) => r.name.trim().toLowerCase() !==
recipeName.trim().toLowerCase())` — the filter of `deleteRecipe`. -/
def filterNameNe (recipes : List JsObj) (recipeName : String) :
    Except String (List JsObj) :=
  match recipes with
  | [] => .ok []
  | r :: rest =>
    match jsTrimLower (getProp r "name") with
    | .error e => .error e
    | .ok rn =>
      match filterNameNe rest recipeName with
      | .error e => .error e
      | .ok tail =>
        if rn ≠ normStr recipeName then .ok (r :: tail) else .ok tail

/-- `deleteRecipe(recipeName)` from index.js (lines 174-183): filter out all
name matches; when nothing was removed, return `false` without writing. -/
def deleteRecipe (store : List JsObj) (recipeName : String) :
    Except String (Bool × List JsObj) :=
  match filterNameNe store recipeName with
  | .error e => .error e
  | .ok filtered =>
    if filtered.length = store.length then .ok (false, store)
    else .ok (true, filtered)

/-! ## `FileStorage.getRecipes` (fileStorage.js, lines 8-16)

`JSON.parse` is a platform builtin, so the backing file's content is modelled
by its read/parse outcome: absent or unreadable (read rejects), readable but
malformed (`JSON.parse` throws), or readable well-formed JSON with its parsed
value. -/

/-- Content of the backing file, by its `JSON.parse` outcome. -/
inductive JsonText where
  | malformed : JsonText
  | wellFormed : JsVal → JsonText

/-- State of the backing file as seen by `fs.readFile`. -/
inductive FileState where
  | absent : FileState
  | unreadable : FileState
  | readable : JsonText → FileState

/-- `FileStorage.getRecipes()` from fileStorage.js: `try { return
JSON.parse(await fs.readFile(...)) } catch { return [] }`.  Note there is no
`Array.isArray` check in this layer. -/
def fileGetRecipes : FileState → JsVal
  | .absent => .varr []
  | .unreadable => .varr []
  | .readable .malformed => .varr []
  | .readable (.wellFormed v) => v

/-- `Array.isArray`. -/
def isArr : JsVal → Bool
  | .varr _ => true
  | _ => false


/-! ## The name-uniqueness invariant -/

/-- Spec invariant: every record's `name` is a string and no two records share
a name under trimmed, case-insensitive comparison. -/
def UniqueNames (store : List JsObj) : Prop :=
  (∀ r ∈ store, (normName r).isSome) ∧ (store.map normName).Nodup

instance (store : List JsObj) : Decidable (UniqueNames store) := by
  unfold UniqueNames
  infer_instance

/-- A record only carries schema-defined keys. -/
def OnlySchemaKeys (r : JsObj) : Prop :=
  ∀ k ∈ keysOf r, k ∈ schemaKeys

/-! ## Lemmas about lookup, spread merge, and the update set -/

theorem lookupKey_append (l₁ l₂ : JsObj) (k : String) :
    lookupKey (l₁ ++ l₂) k =
      match lookupKey l₁ k with
      | some v => some v
      | none => lookupKey l₂ k := by
  induction l₁ with
  | nil => simp [lookupKey]
  | cons kv rest ih =>
    obtain ⟨k', v'⟩ := kv
    by_cases h : k' = k <;> simp [lookupKey, h, ih]

theorem lookupKey_eq_none_iff (l : JsObj) (k : String) :
    lookupKey l k = none ↔ k ∉ keysOf l := by
  induction l with
  | nil => simp [lookupKey, keysOf]
  | cons kv rest ih =>
    obtain ⟨k', v'⟩ := kv
    by_cases h : k' = k
    · subst h
      simp [lookupKey, keysOf]
    · have h' : ¬(k = k') := fun hh => h hh.symm
      simp [lookupKey, h, keysOf, ih, h']

theorem lookupKey_map_override (base upd : JsObj) (k : String) :
    lookupKey
      (base.map fun kv =>
        match lookupKey upd kv.1 with
        | some w => (kv.1, w)
        | none => kv) k =
      match lookupKey base k with
      | none => none
      | some v =>
        some (match lookupKey upd k with
              | some w => w
              | none => v) := by
  induction base with
  | nil => simp [lookupKey]
  | cons kv rest ih =>
    obtain ⟨k', v'⟩ := kv
    by_cases h : k' = k
    · subst h
      cases hu : lookupKey upd k' <;> simp [lookupKey, hu]
    · cases hu : lookupKey upd k' <;> simp [lookupKey, hu, h, ih]

theorem lookupKey_filter_false (l : JsObj) (p : String × JsVal → Bool)
    (k : String) (hp : ∀ v, p (k, v) = false) :
    lookupKey (l.filter p) k = none := by
  induction l with
  | nil => simp [lookupKey]
  | cons kv rest ih =>
    obtain ⟨k', v'⟩ := kv
    by_cases h : k' = k
    · subst h
      simp [List.filter, hp v', ih]
    · cases hpkv : p (k', v') <;> simp [List.filter, hpkv, lookupKey, h, ih]

theorem lookupKey_filter_true (l : JsObj) (p : String × JsVal → Bool)
    (k : String) (hp : ∀ v, p (k, v) = true) :
    lookupKey (l.filter p) k = lookupKey l k := by
  induction l with
  | nil => simp
  | cons kv rest ih =>
    obtain ⟨k', v'⟩ := kv
    by_cases h : k' = k
    · subst h
      simp [List.filter, hp v', lookupKey, ih]
    · cases hpkv : p (k', v') <;> simp [List.filter, hpkv, lookupKey, h, ih]

/-- Field lookup after an object spread: the update's value when it has the
key, the base's value otherwise. -/
theorem lookupKey_spreadMerge (base upd : JsObj) (k : String) :
    lookupKey (spreadMerge base upd) k =
      match lookupKey upd k with
      | some w => some w
      | none => lookupKey base k := by
  unfold spreadMerge
  rw [lookupKey_append, lookupKey_map_override]
  cases hb : lookupKey base k with
  | some v => cases hu : lookupKey upd k <;> simp
  | none =>
    have hk : k ∉ keysOf base := (lookupKey_eq_none_iff base k).mp hb
    rw [lookupKey_filter_true]
    · cases hu : lookupKey upd k <;> simp
    · intro v
      simp [hk]

theorem lookupKey_allowedUpdatesOn_not_mem (schema : List (String × Rule))
    (u : JsObj) (k : String) (hk : k ∉ schema.map Prod.fst) :
    lookupKey (allowedUpdatesOn schema u) k = none := by
  induction schema with
  | nil => simp [allowedUpdatesOn, lookupKey]
  | cons kr rest ih =>
    obtain ⟨k₀, r₀⟩ := kr
    simp only [List.map_cons, List.mem_cons, not_or] at hk
    obtain ⟨hk₀, hkrest⟩ := hk
    simp only [allowedUpdatesOn, List.filterMap_cons] at ih ⊢
    cases hu : lookupKey u k₀ with
    | none => exact ih hkrest
    | some v =>
      by_cases ht : typeMatches r₀.type v
      · simp only [ht, if_true, lookupKey]
        rw [if_neg (fun hh => hk₀ hh.symm)]
        exact ih hkrest
      · simp only [ht, if_false]
        exact ih hkrest

theorem lookupKey_allowedUpdatesOn_mem (schema : List (String × Rule))
    (u : JsObj) (k : String) (rule : Rule)
    (hnd : (schema.map Prod.fst).Nodup) (hmem : (k, rule) ∈ schema) :
    lookupKey (allowedUpdatesOn schema u) k =
      match lookupKey u k with
      | some v => if typeMatches rule.type v then some v else none
      | none => none := by
  induction schema with
  | nil => cases hmem
  | cons kr rest ih =>
    obtain ⟨k₀, r₀⟩ := kr
    simp only [List.map_cons, List.nodup_cons] at hnd
    obtain ⟨hk₀, hndrest⟩ := hnd
    rcases List.mem_cons.mp hmem with hhead | htail
    · obtain ⟨hkk, hrr⟩ := Prod.mk.injEq .. ▸ hhead
      · subst hkk
        subst hrr
        have hrest : lookupKey (allowedUpdatesOn rest u) k = none := by
          apply lookupKey_allowedUpdatesOn_not_mem
          simpa using hk₀
        simp only [allowedUpdatesOn, List.filterMap_cons] at hrest ⊢
        cases hu : lookupKey u k with
        | none => exact hrest
        | some v =>
          by_cases ht : typeMatches rule.type v
          · simp [ht, lookupKey]
          · simp [ht, hrest]
    · have hkne : k₀ ≠ k := by
        intro hh
        subst hh
        exact hk₀ (List.mem_map.mpr ⟨(k₀, rule), htail, rfl⟩)
      simp only [allowedUpdatesOn, List.filterMap_cons] at ih ⊢
      cases hu : lookupKey u k₀ with
      | none => exact ih hndrest htail
      | some v =>
        by_cases ht : typeMatches r₀.type v
        · simp only [ht, if_true, lookupKey]
          rw [if_neg hkne]
          exact ih hndrest htail
        · simp only [ht, if_false]
          exact ih hndrest htail

/-! ## Lemmas about `validateFields` -/

theorem validateFields_keys (schema : List (String × Rule)) (r : JsObj)
    (b : Bool) (v : JsObj) (h : validateFields schema r b = some v) :
    keysOf v = schema.map Prod.fst := by
  induction schema generalizing v with
  | nil =>
    simp only [validateFields, Option.some.injEq] at h
    subst h
    simp [keysOf]
  | cons kr rest ih =>
    obtain ⟨k₀, r₀⟩ := kr
    simp only [validateFields] at h
    cases hf : fieldValue r k₀ r₀ b with
    | none => rw [hf] at h; cases h
    | some fv =>
      rw [hf] at h
      cases ht : validateFields rest r b with
      | none => rw [ht] at h; cases h
      | some tail =>
        rw [ht] at h
        cases h
        have ih' := ih tail ht
        simp only [keysOf, List.map_cons] at ih' ⊢
        rw [ih']

theorem validateFields_lookup (schema : List (String × Rule)) (r : JsObj)
    (b : Bool) (v : JsObj) (hnd : (schema.map Prod.fst).Nodup)
    (h : validateFields schema r b = some v) :
    ∀ k rule, (k, rule) ∈ schema → lookupKey v k = fieldValue r k rule b := by
  induction schema generalizing v with
  | nil => intro k rule hmem; cases hmem
  | cons kr rest ih =>
    obtain ⟨k₀, r₀⟩ := kr
    simp only [List.map_cons, List.nodup_cons] at hnd
    obtain ⟨hk₀, hndrest⟩ := hnd
    intro k rule hmem
    simp only [validateFields] at h
    cases hf : fieldValue r k₀ r₀ b with
    | none => rw [hf] at h; cases h
    | some fv =>
      rw [hf] at h
      cases ht : validateFields rest r b with
      | none => rw [ht] at h; cases h
      | some tail =>
        rw [ht] at h
        cases h
        rcases List.mem_cons.mp hmem with hhead | htail
        · obtain ⟨hkk, hrr⟩ := Prod.mk.injEq .. ▸ hhead
          subst hkk
          subst hrr
          simp [lookupKey, hf]
        · have hkne : k₀ ≠ k := by
            intro hh
            subst hh
            exact hk₀ (List.mem_map.mpr ⟨(k₀, rule), htail, rfl⟩)
          simp only [lookupKey, if_neg hkne]
          exact ih tail hndrest ht k rule htail

/-- The schema's keys are distinct. -/
theorem recipeSchema_keys_nodup : (recipeSchema.map Prod.fst).Nodup := by
  decide

/-- A validated recipe carries exactly the schema keys. -/
theorem validateRecipe_keys (r : JsObj) (b : Bool) (v : JsObj)
    (h : validateRecipe r b = some v) : keysOf v = schemaKeys := by
  have := validateFields_keys recipeSchema r b v h
  simpa [recipeSchema, schemaKeys] using this

/-- Field lookup in a validated recipe, for any schema key. -/
theorem validateRecipe_lookup (r : JsObj) (b : Bool) (v : JsObj)
    (h : validateRecipe r b = some v) :
    ∀ k rule, (k, rule) ∈ recipeSchema → lookupKey v k = fieldValue r k rule b :=
  validateFields_lookup recipeSchema r b v recipeSchema_keys_nodup h

/-- A recipe validated in creation mode has a string `name`, and it equals
the input's `name` whenever that was a string. -/
theorem validateRecipe_name (r : JsObj) (v : JsObj)
    (h : validateRecipe r false = some v) :
    ∃ s, lookupKey v "name" = some (.vstr s) ∧
      (∀ c, lookupKey r "name" = some (.vstr c) → s = c) := by
  have hl := validateRecipe_lookup r false v h "name" ⟨.fstring, true⟩
    (by simp [recipeSchema])
  rw [hl]
  unfold fieldValue
  cases hr : lookupKey r "name" with
  | none =>
    exfalso
    have hk := validateRecipe_keys r false v h
    have hnone : lookupKey v "name" = none := by simp [hl, fieldValue, hr]
    have := (lookupKey_eq_none_iff v "name").mp hnone
    rw [hk] at this
    exact this (by decide)
  | some nv =>
    cases nv with
    | vstr s => exact ⟨s, by simp [typeMatches], fun c hc => by cases hc; rfl⟩
    | vundefined => exact ⟨"", by simp [typeMatches, zeroVal], fun c hc => by cases hc⟩
    | vnull => exact ⟨"", by simp [typeMatches, zeroVal], fun c hc => by cases hc⟩
    | vbool b' => exact ⟨"", by simp [typeMatches, zeroVal], fun c hc => by cases hc⟩
    | vnum n => exact ⟨"", by simp [typeMatches, zeroVal], fun c hc => by cases hc⟩
    | varr xs => exact ⟨"", by simp [typeMatches, zeroVal], fun c hc => by cases hc⟩

/-! ## Lemmas about the name scans -/

/-- When the duplicate check comes back `false`, every stored name and the
candidate's name (if any record was compared) normalized without error and
without a match. -/
theorem someNameMatches_false (recipes : List JsObj) (recipe : JsObj)
    (h : someNameMatches recipes recipe = .ok false) :
    ∀ r ∈ recipes, ∃ rn cn,
      normName r = some rn ∧ normName recipe = some cn ∧ rn ≠ cn := by
  induction recipes with
  | nil => intro r hr; cases hr
  | cons r₀ rest ih =>
    intro r hr
    simp only [someNameMatches] at h
    cases h₀ : jsTrimLower (getProp r₀ "name") with
    | error e => rw [h₀] at h; cases h
    | ok rn₀ =>
      rw [h₀] at h
      cases hc : jsTrimLower (getProp recipe "name") with
      | error e => rw [hc] at h; cases h
      | ok cn =>
        rw [hc] at h
        dsimp only at h
        by_cases heq : rn₀ = cn
        · rw [if_pos heq] at h; cases h
        · rw [if_neg heq] at h
          rcases List.mem_cons.mp hr with hr₀ | hrest
          · subst hr₀
            exact ⟨rn₀, cn, (jsTrimLower_name_eq_normName r rn₀).mp h₀,
              (jsTrimLower_name_eq_normName recipe cn).mp hc, heq⟩
          · exact ih h r hrest

/-- A successful `findIndexName` points at a record whose normalized name is
the normalized search name. -/
theorem findIndexName_some (recipes : List JsObj) (nm : String) (i : Nat)
    (h : findIndexName recipes nm = .ok (some i)) :
    i < recipes.length ∧ normName (recipes.getD i []) = some (normStr nm) := by
  induction recipes generalizing i with
  | nil => cases h
  | cons r₀ rest ih =>
    simp only [findIndexName] at h
    cases h₀ : jsTrimLower (getProp r₀ "name") with
    | error e => rw [h₀] at h; cases h
    | ok rn₀ =>
      rw [h₀] at h
      dsimp only at h
      by_cases heq : rn₀ = normStr nm
      · rw [if_pos heq] at h
        cases h
        refine ⟨Nat.succ_pos _, ?_⟩
        rw [List.getD_cons_zero]
        rw [← heq]
        exact (jsTrimLower_name_eq_normName r₀ rn₀).mp h₀
      · rw [if_neg heq] at h
        cases hrec : findIndexName rest nm with
        | error e => rw [hrec] at h; cases h
        | ok o =>
          rw [hrec] at h
          cases o with
          | none => cases h
          | some j =>
            have hji : j + 1 = i := by simpa using h
            subst hji
            obtain ⟨hlt, hnm⟩ := ih j hrec
            exact ⟨Nat.succ_lt_succ hlt, by rwa [List.getD_cons_succ]⟩

/-- When every record's normalized name exists and misses the search name,
`findIndexName` reports no match. -/
theorem findIndexName_none (recipes : List JsObj) (nm : String)
    (h : ∀ r ∈ recipes, (normName r).isSome ∧ normName r ≠ some (normStr nm)) :
    findIndexName recipes nm = .ok none := by
  induction recipes with
  | nil => rfl
  | cons r₀ rest ih =>
    obtain ⟨h₀some, h₀ne⟩ := h r₀ (List.mem_cons_self ..)
    cases hs : normName r₀ with
    | none => rw [hs] at h₀some; cases h₀some
    | some rn₀ =>
      have h₀ : jsTrimLower (getProp r₀ "name") = .ok rn₀ :=
        (jsTrimLower_name_eq_normName r₀ rn₀).mpr hs
      have hne : rn₀ ≠ normStr nm := by
        intro hh
        rw [hs, hh] at h₀ne
        exact h₀ne rfl
      simp [findIndexName, h₀, hne,
        ih fun r hr => h r (List.mem_cons_of_mem _ hr)]

/-- With string names throughout, `deleteRecipe`'s scan is a pure filter on
the normalized name. -/
theorem filterNameNe_eq (recipes : List JsObj) (nm : String)
    (h : ∀ r ∈ recipes, (normName r).isSome) :
    filterNameNe recipes nm =
      .ok (recipes.filter fun r => normName r != some (normStr nm)) := by
  induction recipes with
  | nil => rfl
  | cons r₀ rest ih =>
    have h₀some := h r₀ (List.mem_cons_self ..)
    cases hs : normName r₀ with
    | none => rw [hs] at h₀some; cases h₀some
    | some rn₀ =>
      have h₀ : jsTrimLower (getProp r₀ "name") = .ok rn₀ :=
        (jsTrimLower_name_eq_normName r₀ rn₀).mpr hs
      have ih' := ih fun r hr => h r (List.mem_cons_of_mem _ hr)
      by_cases heq : rn₀ = normStr nm
      · subst heq
        simp [filterNameNe, h₀, ih', List.filter, hs]
      · have hbe : (rn₀ == normStr nm) = false := by simp [heq]
        simp [filterNameNe, h₀, ih', List.filter, hs, heq, bne, hbe]

/-! ## Generic list helpers -/

theorem set_getD_self {α : Type} (l : List α) (i : Nat) (d : α)
    (h : i < l.length) : l.set i (l.getD i d) = l := by
  apply List.ext_getElem?
  intro j
  rw [List.getElem?_set]
  by_cases hij : i = j
  · subst hij
    rw [if_pos rfl, if_pos h, List.getD_eq_getElem l d h,
      List.getElem?_eq_getElem h]
  · rw [if_neg hij]

theorem nodup_set_of_not_mem {α : Type} (l : List α) (i : Nat) (a : α)
    (hnd : l.Nodup) (ha : a ∉ l) : (l.set i a).Nodup := by
  induction l generalizing i with
  | nil => simp
  | cons x xs ih =>
    rw [List.nodup_cons] at hnd
    obtain ⟨hx, hxs⟩ := hnd
    simp only [List.mem_cons, not_or] at ha
    obtain ⟨hax, haxs⟩ := ha
    cases i with
    | zero =>
      rw [List.set_cons_zero, List.nodup_cons]
      exact ⟨haxs, hxs⟩
    | succ n =>
      rw [List.set_cons_succ, List.nodup_cons]
      refine ⟨?_, ih n hxs haxs⟩
      intro hmem
      rcases List.mem_or_eq_of_mem_set hmem with hmem' | hxa
      · exact hx hmem'
      · exact hax (hxa ▸ rfl)

/-! ## Inversion lemmas for the operations -/

theorem addRecipe_ok (store : List JsObj) (r : JsObj) (b : Bool)
    (new : List JsObj) (h : addRecipe store r = .ok (b, new)) :
    (b = false ∧ new = store) ∨
      (b = true ∧ ∃ v, someNameMatches store r = .ok false ∧
        validateRecipe r = some v ∧ new = store ++ [v]) := by
  unfold addRecipe at h
  cases hs : someNameMatches store r with
  | error e => rw [hs] at h; cases h
  | ok dup =>
    rw [hs] at h
    cases dup with
    | true =>
      dsimp only at h
      cases h
      exact Or.inl ⟨rfl, rfl⟩
    | false =>
      dsimp only at h
      cases hv : validateRecipe r with
      | none => rw [hv] at h; cases h; exact Or.inl ⟨rfl, rfl⟩
      | some v =>
        rw [hv] at h
        cases h
        exact Or.inr ⟨rfl, v, rfl, rfl, rfl⟩

theorem updateRecipe_ok_true (store : List JsObj) (nm : String) (u : JsObj)
    (new : List JsObj) (h : updateRecipe store nm u = .ok (true, new)) :
    ∃ i, findIndexName store nm = .ok (some i) ∧ i < store.length ∧
      normName (store.getD i []) = some (normStr nm) ∧
      new = store.set i (spreadMerge (store.getD i []) (allowedUpdates u)) := by
  unfold updateRecipe at h
  cases hf : findIndexName store nm with
  | error e => rw [hf] at h; cases h
  | ok o =>
    rw [hf] at h
    cases o with
    | none => cases h
    | some i =>
      dsimp only at h
      cases h
      obtain ⟨hlt, hnm⟩ := findIndexName_some store nm i hf
      exact ⟨i, rfl, hlt, hnm, rfl⟩

theorem updateRecipe_ok_false (store : List JsObj) (nm : String) (u : JsObj)
    (new : List JsObj) (h : updateRecipe store nm u = .ok (false, new)) :
    new = store := by
  unfold updateRecipe at h
  cases hf : findIndexName store nm with
  | error e => rw [hf] at h; cases h
  | ok o =>
    rw [hf] at h
    cases o with
    | none => cases h; rfl
    | some i => dsimp only at h; cases h

/-! ## Concrete records used by scenarios and counterexamples -/

/-- The candidate from the spec scenario:
`{name:"Pasta", ingredients:["noodles","sauce"], instructions:"Boil and mix."}`. -/
def pastaInput : JsObj :=
  [("name", .vstr "Pasta"),
   ("ingredients", .varr [.vstr "noodles", .vstr "sauce"]),
   ("instructions", .vstr "Boil and mix.")]

/-- The record `addRecipe` persists for `pastaInput`. -/
def pastaStored : JsObj :=
  [("name", .vstr "Pasta"),
   ("ingredients", .varr [.vstr "noodles", .vstr "sauce"]),
   ("instructions", .vstr "Boil and mix."),
   ("category", .vstr ""),
   ("tags", .varr [])]

/-- A second stored recipe, named "Tacos". -/
def tacoStored : JsObj :=
  [("name", .vstr "Tacos"),
   ("ingredients", .varr [.vstr "tortilla"]),
   ("instructions", .vstr "Fill."),
   ("category", .vstr ""),
   ("tags", .varr [])]

/-- `pastaStored` after `updateRecipe("Pasta", {name:"Tacos"})`. -/
def pastaRenamed : JsObj :=
  [("name", .vstr "Tacos"),
   ("ingredients", .varr [.vstr "noodles", .vstr "sauce"]),
   ("instructions", .vstr "Boil and mix."),
   ("category", .vstr ""),
   ("tags", .varr [])]

/-- A stored record that carries an `id` field (as written by earlier
iterations of the module). -/
def idPasta : JsObj :=
  [("id", .vnum 7),
   ("name", .vstr "Pasta"),
   ("ingredients", .varr [.vstr "noodles", .vstr "sauce"]),
   ("instructions", .vstr "Boil and mix."),
   ("category", .vstr ""),
   ("tags", .varr [])]

/-- A candidate with no `name` field. -/
def noNameInput : JsObj :=
  [("ingredients", .varr [.vstr "water"]),
   ("instructions", .vstr "Stir.")]

/-- `idPasta` after `updateRecipe("Pasta", {id:99, name:"Tacos"})`: the `id`
is untouched but the `name` is overwritten. -/
def idPastaRenamed : JsObj :=
  [("id", .vnum 7),
   ("name", .vstr "Tacos"),
   ("ingredients", .varr [.vstr "noodles", .vstr "sauce"]),
   ("instructions", .vstr "Boil and mix."),
   ("category", .vstr ""),
   ("tags", .varr [])]

/-! ## Claim theorems -/

/-- C1, counterexample: running the claim's own scenario — `addRecipe` of the
Pasta candidate on an empty store — succeeds, but the single stored record
carries no `id` key at all, so no record with `id = 1` is returned. -/
theorem c1_counterexample :
    addRecipe [] pastaInput = .ok (true, [pastaStored]) ∧
      ∀ r ∈ [pastaStored], lookupKey r "id" ≠ some (.vnum 1) := by
  refine ⟨rfl, ?_⟩
  intro r hr
  rw [List.mem_singleton] at hr
  subst hr
  intro hc
  rw [show lookupKey pastaStored "id" = none from rfl] at hc
  cases hc

/-- C1, amended: starting from an empty store,
`addRecipe({name:"Pasta", ingredients:["noodles","sauce"],
instructions:"Boil and mix."})` returns `true` and the store then holds
exactly one record, with `category = ""` and `tags = []`, exactly the five
schema fields, and no `id` field (the refactored `addRecipe` assigns no id). -/
theorem c1_add_pasta_scenario :
    addRecipe [] pastaInput = .ok (true, [pastaStored]) ∧
      lookupKey pastaStored "category" = some (.vstr "") ∧
      lookupKey pastaStored "tags" = some (.varr []) ∧
      keysOf pastaStored = schemaKeys ∧
      lookupKey pastaStored "id" = none :=
  ⟨rfl, rfl, rfl, rfl, rfl⟩

/-- C4: `addRecipe` on a candidate with the required `name` missing returns
`false` only when the collection is empty; on a non-empty collection the
duplicate check evaluates `recipe.name.trim()` and throws a `TypeError`
instead of returning `false` — contradicting the documented
exception-free contract. -/
theorem c4_missing_name_throws :
    addRecipe [pastaStored] noNameInput
        = .error "TypeError: v.trim is not a function" ∧
      addRecipe [] noNameInput = .ok (false, []) :=
  ⟨rfl, rfl⟩

/-- C5, counterexample: a backing file holding the well-formed JSON text `5`
(valid JSON, not a sequence) makes `FileStorage.getRecipes` return the
number itself, not the empty sequence the claim promises. -/
theorem c5_counterexample :
    fileGetRecipes (.readable (.wellFormed (.vnum 5))) = .vnum 5 ∧
      fileGetRecipes (.readable (.wellFormed (.vnum 5))) ≠ .varr [] ∧
      isArr (fileGetRecipes (.readable (.wellFormed (.vnum 5)))) = false := by
  refine ⟨rfl, ?_, rfl⟩
  intro hc
  rw [show fileGetRecipes (.readable (.wellFormed (.vnum 5))) = .vnum 5
        from rfl] at hc
  cases hc

/-- C5, amended: `FileStorage.getRecipes` returns the empty sequence when the
file is absent, unreadable, or malformed, and never throws; but when the
parsed content is valid JSON that is not a sequence it returns that value
as-is (the `Array.isArray` wrap lives in the service layer, not here). -/
theorem c5_file_backend_list :
    fileGetRecipes .absent = .varr [] ∧
      fileGetRecipes .unreadable = .varr [] ∧
      fileGetRecipes (.readable .malformed) = .varr [] ∧
      ∀ v, fileGetRecipes (.readable (.wellFormed v)) = v :=
  ⟨rfl, rfl, rfl, fun _ => rfl⟩

/-- C2, counterexample: a collection satisfying the uniqueness invariant,
and an `updateRecipe` call renaming "Pasta" to the already-present "Tacos",
whose persisted result violates the invariant. -/
theorem c2_counterexample :
    UniqueNames [pastaStored, tacoStored] ∧
      updateRecipe [pastaStored, tacoStored] "Pasta" [("name", .vstr "Tacos")]
        = .ok (true, [pastaRenamed, tacoStored]) ∧
      ¬ UniqueNames [pastaRenamed, tacoStored] :=
  ⟨by decide, rfl, by decide⟩

/-- C3, counterexample: updating "Pasta" with a partial that contains both an
`id` and a `name` key leaves `id` at 7 but overwrites the stored `name` with
"Tacos", so the target's `name` is not preserved. -/
theorem c3_counterexample :
    lookupKey idPasta "name" = some (.vstr "Pasta") ∧
      updateRecipe [idPasta] "Pasta" [("id", .vnum 99), ("name", .vstr "Tacos")]
        = .ok (true, [idPastaRenamed]) ∧
      lookupKey idPastaRenamed "name" = some (.vstr "Tacos") ∧
      ("Tacos" : String) ≠ "Pasta" :=
  ⟨rfl, rfl, rfl, by decide⟩

/-! ## getD/set helpers -/

theorem getD_set_eq {α : Type} (l : List α) (i : Nat) (a d : α)
    (h : i < l.length) : (l.set i a).getD i d = a := by
  rw [List.getD_eq_getElem?_getD, List.getElem?_set_self h]
  rfl

theorem getD_set_ne {α : Type} (l : List α) (i j : Nat) (a d : α)
    (h : i ≠ j) : (l.set i a).getD j d = l.getD j d := by
  rw [List.getD_eq_getElem?_getD, List.getElem?_set_ne h,
    ← List.getD_eq_getElem?_getD]

/-- C3, amended: a successful `updateRecipe` never touches any record's `id`
(`id` is not a schema key, so it never enters the update set), and it
preserves the target's `name` exactly when the update set carries no `name`;
a string-typed `name` in the partial overwrites the stored one. -/
theorem c3_update_id_name (store : List JsObj) (nm : String) (u : JsObj)
    (new : List JsObj) (h : updateRecipe store nm u = .ok (true, new)) :
    (∀ j d, lookupKey (new.getD j d) "id" = lookupKey (store.getD j d) "id") ∧
      ∃ i, i < store.length ∧
        (∀ j, j ≠ i → new.getD j [] = store.getD j []) ∧
        (lookupKey (allowedUpdates u) "name" = none →
          lookupKey (new.getD i []) "name"
            = lookupKey (store.getD i []) "name") ∧
        (∀ s, lookupKey (allowedUpdates u) "name" = some (.vstr s) →
          lookupKey (new.getD i []) "name" = some (.vstr s)) := by
  obtain ⟨i, hfind, hlt, hnm, hnew⟩ := updateRecipe_ok_true store nm u new h
  have hid : lookupKey (allowedUpdates u) "id" = none := by
    apply lookupKey_allowedUpdatesOn_not_mem
    decide
  subst hnew
  refine ⟨?_, i, hlt, ?_, ?_, ?_⟩
  · intro j d
    by_cases hji : i = j
    · subst hji
      rw [getD_set_eq _ _ _ _ hlt, lookupKey_spreadMerge, hid]
      have hbase : store.getD i d = store.getD i [] := by
        rw [List.getD_eq_getElem store d hlt,
          List.getD_eq_getElem store ([] : JsObj) hlt]
      rw [hbase]
    · rw [getD_set_ne _ _ _ _ _ hji]
  · intro j hji
    exact getD_set_ne _ _ _ _ _ (fun hh => hji hh.symm)
  · intro hname
    rw [getD_set_eq _ _ _ _ hlt, lookupKey_spreadMerge, hname]
  · intro s hname
    rw [getD_set_eq _ _ _ _ hlt, lookupKey_spreadMerge, hname]

/-- `idPasta` after `updateRecipe("Pasta", {ingredients:["rice"], id:99})`:
ingredients change, `id` stays 7. -/
def idPastaRice : JsObj :=
  [("id", .vnum 7),
   ("name", .vstr "Pasta"),
   ("ingredients", .varr [.vstr "rice"]),
   ("instructions", .vstr "Boil and mix."),
   ("category", .vstr ""),
   ("tags", .varr [])]

/-- Witness for C3's amended theorem at a concrete update. -/
theorem c3_witness :
    lookupKey (([idPastaRice] : List JsObj).getD 0 []) "id"
      = lookupKey (([idPasta] : List JsObj).getD 0 []) "id" :=
  (c3_update_id_name [idPasta] "Pasta"
    [("ingredients", .varr [.vstr "rice"]), ("id", .vnum 99)]
    [idPastaRice] rfl).1 0 []

/-- C7: in update mode, a successful `updateRecipe` merges exactly the
well-typed schema keys of the partial into the target record: absent keys
and type-mismatched keys leave the stored field at its prior value, and a
well-typed present key takes the partial's value. -/
theorem c7_update_partial_merge (store : List JsObj) (nm : String) (u : JsObj)
    (new : List JsObj) (h : updateRecipe store nm u = .ok (true, new)) :
    ∃ i, i < store.length ∧
      new = store.set i (spreadMerge (store.getD i []) (allowedUpdates u)) ∧
      ∀ k rule, (k, rule) ∈ recipeSchema →
        (lookupKey u k = none →
          lookupKey (new.getD i []) k = lookupKey (store.getD i []) k) ∧
        (∀ v, lookupKey u k = some v → typeMatches rule.type v = false →
          lookupKey (new.getD i []) k = lookupKey (store.getD i []) k) ∧
        (∀ v, lookupKey u k = some v → typeMatches rule.type v = true →
          lookupKey (new.getD i []) k = some v) := by
  obtain ⟨i, hfind, hlt, hnm, hnew⟩ := updateRecipe_ok_true store nm u new h
  subst hnew
  refine ⟨i, hlt, rfl, ?_⟩
  intro k rule hkr
  have hupd : lookupKey (allowedUpdates u) k =
      match lookupKey u k with
      | some v => if typeMatches rule.type v then some v else none
      | none => none :=
    lookupKey_allowedUpdatesOn_mem recipeSchema u k rule
      recipeSchema_keys_nodup hkr
  have hmerged := getD_set_eq store i
    (spreadMerge (store.getD i []) (allowedUpdates u)) ([] : JsObj) hlt
  refine ⟨?_, ?_, ?_⟩
  · intro hnone
    rw [hmerged, lookupKey_spreadMerge]
    rw [hnone] at hupd
    dsimp only at hupd
    rw [hupd]
  · intro v hv ht
    rw [hmerged, lookupKey_spreadMerge]
    rw [hv] at hupd
    dsimp only at hupd
    rw [ht] at hupd
    simp only [Bool.false_eq_true, if_false] at hupd
    rw [hupd]
  · intro v hv ht
    rw [hmerged, lookupKey_spreadMerge]
    rw [hv] at hupd
    dsimp only at hupd
    rw [ht] at hupd
    simp only [if_true] at hupd
    rw [hupd]

/-- A stored cake recipe, for the C7 witness. -/
def cakeStored : JsObj :=
  [("name", .vstr "Cake"),
   ("ingredients", .varr [.vstr "flour", .vstr "sugar"]),
   ("instructions", .vstr "Mix and bake."),
   ("category", .vstr ""),
   ("tags", .varr [])]

/-- `cakeStored` after updating only `ingredients`. -/
def cakeUpdated : JsObj :=
  [("name", .vstr "Cake"),
   ("ingredients", .varr [.vstr "flour", .vstr "sugar", .vstr "vanilla"]),
   ("instructions", .vstr "Mix and bake."),
   ("category", .vstr ""),
   ("tags", .varr [])]

/-- Witness for C7 at the spec's example: updating only `ingredients`
changes `ingredients` and leaves `instructions` untouched. -/
theorem c7_witness :
    lookupKey (([cakeUpdated] : List JsObj).getD 0 []) "ingredients"
        = some (.varr [.vstr "flour", .vstr "sugar", .vstr "vanilla"]) ∧
      lookupKey (([cakeUpdated] : List JsObj).getD 0 []) "instructions"
        = lookupKey (([cakeStored] : List JsObj).getD 0 []) "instructions" := by
  obtain ⟨i, hlt, hnew, hk⟩ := c7_update_partial_merge [cakeStored] "Cake"
    [("ingredients", .varr [.vstr "flour", .vstr "sugar", .vstr "vanilla"])]
    [cakeUpdated] rfl
  have hi0 : i = 0 := Nat.lt_one_iff.mp hlt
  subst hi0
  exact ⟨(hk "ingredients" ⟨.farray, true⟩ (by decide)).2.2 _ rfl rfl,
    (hk "instructions" ⟨.fstring, true⟩ (by decide)).1 rfl⟩

/-- C6: a successful `addRecipe` appends exactly one validated record; that
record keeps every well-typed schema field of the candidate, carries only
schema keys, and — when the prior collection only held schema keys — the
whole persisted collection still holds no key outside the schema. -/
theorem c6_round_trip_sanitized (store : List JsObj) (r : JsObj)
    (new : List JsObj) (h : addRecipe store r = .ok (true, new))
    (hstore : ∀ x ∈ store, OnlySchemaKeys x) :
    ∃ v, new = store ++ [v] ∧ OnlySchemaKeys v ∧
      (∀ k rule, (k, rule) ∈ recipeSchema → ∀ val, lookupKey r k = some val →
        typeMatches rule.type val = true → lookupKey v k = some val) ∧
      ∀ x ∈ new, OnlySchemaKeys x := by
  rcases addRecipe_ok store r true new h with ⟨hb, _⟩ | ⟨_, v, hsnm, hval, hnew⟩
  · cases hb
  · subst hnew
    have hkeys := validateRecipe_keys r false v hval
    have honly : OnlySchemaKeys v := by
      intro k hk
      rw [hkeys] at hk
      exact hk
    refine ⟨v, rfl, honly, ?_, ?_⟩
    · intro k rule hkr val hval' ht
      have hl := validateRecipe_lookup r false v hval k rule hkr
      rw [hl]
      unfold fieldValue
      rw [hval']
      dsimp only
      rw [ht]
      simp
    · intro x hx
      rcases List.mem_append.mp hx with hx' | hx'
      · exact hstore x hx'
      · rw [List.mem_singleton] at hx'
        subst hx'
        exact honly

/-- A candidate smuggling a non-schema field. -/
def malInput : JsObj :=
  [("name", .vstr "Burger"),
   ("ingredients", .varr [.vstr "bun"]),
   ("instructions", .vstr "Assemble."),
   ("maliciousField", .vstr "HACKER_DATA")]

/-- What `addRecipe` persists for `malInput`: the unexpected field is gone. -/
def malStored : JsObj :=
  [("name", .vstr "Burger"),
   ("ingredients", .varr [.vstr "bun"]),
   ("instructions", .vstr "Assemble."),
   ("category", .vstr ""),
   ("tags", .varr [])]

/-- Witness for C6 at a candidate carrying `maliciousField`. -/
theorem c6_witness :
    OnlySchemaKeys malStored ∧ lookupKey malStored "maliciousField" = none := by
  obtain ⟨v, hv, honly, -, -⟩ := c6_round_trip_sanitized [] malInput
    [malStored] rfl (by intro x hx; cases hx)
  rw [List.nil_append] at hv
  have hvm : malStored = v := by
    injection hv with h1 h2
  constructor
  · rw [hvm]
    exact honly
  · rfl

/-- C8: creation-mode leniency — a successful `addRecipe` stores a record
with the full set of schema fields, in which a present but wrong-typed
candidate field is coerced to the type's zero value and an absent optional
field is defaulted to it. -/
theorem c8_creation_defaults (store : List JsObj) (r : JsObj)
    (new : List JsObj) (h : addRecipe store r = .ok (true, new)) :
    ∃ v, new = store ++ [v] ∧ keysOf v = schemaKeys ∧
      (∀ k rule, (k, rule) ∈ recipeSchema → ∀ val, lookupKey r k = some val →
        typeMatches rule.type val = false →
          lookupKey v k = some (zeroVal rule.type)) ∧
      (∀ k rule, (k, rule) ∈ recipeSchema → rule.required = false →
        lookupKey r k = none → lookupKey v k = some (zeroVal rule.type)) := by
  rcases addRecipe_ok store r true new h with ⟨hb, _⟩ | ⟨_, v, hsnm, hval, hnew⟩
  · cases hb
  · subst hnew
    have hkeys := validateRecipe_keys r false v hval
    refine ⟨v, rfl, hkeys, ?_, ?_⟩
    · intro k rule hkr val hval' ht
      have hl := validateRecipe_lookup r false v hval k rule hkr
      rw [hl]
      unfold fieldValue
      rw [hval']
      dsimp only
      rw [ht]
      simp
    · intro k rule hkr hreq hnone
      have hl := validateRecipe_lookup r false v hval k rule hkr
      rw [hl]
      unfold fieldValue
      rw [hnone]
      dsimp only
      rw [hreq]
      simp

/-- The spec's leniency example `{name:"X", ingredients:"not-an-array",
instructions:"Y"}`. -/
def xInput : JsObj :=
  [("name", .vstr "X"),
   ("ingredients", .vstr "not-an-array"),
   ("instructions", .vstr "Y")]

/-- What `addRecipe` persists for `xInput`: `ingredients` coerced to `[]`. -/
def xStored : JsObj :=
  [("name", .vstr "X"),
   ("ingredients", .varr []),
   ("instructions", .vstr "Y"),
   ("category", .vstr ""),
   ("tags", .varr [])]

/-- Witness for C8 at the spec's leniency example: the add succeeds, the
wrong-typed `ingredients` is stored as `[]`, and the absent `category` is
defaulted to `""`. -/
theorem c8_witness :
    lookupKey xStored "ingredients" = some (.varr []) ∧
      lookupKey xStored "category" = some (.vstr "") ∧
      keysOf xStored = schemaKeys := by
  obtain ⟨v, hv, hkeys, hmis, hdef⟩ := c8_creation_defaults [] xInput
    [xStored] rfl
  rw [List.nil_append] at hv
  have hvm : xStored = v := by
    injection hv with h1 h2
  rw [hvm]
  refine ⟨?_, ?_, hkeys⟩
  · exact hmis "ingredients" ⟨.farray, true⟩ (by decide)
      (.vstr "not-an-array") rfl rfl
  · exact hdef "category" ⟨.fstring, false⟩ (by decide) rfl rfl

/-- C9: when no stored recipe's trimmed lowercased name equals the trimmed
lowercased argument (all names being strings), `updateRecipe` and
`deleteRecipe` both return `false` and leave the collection exactly as it
was — no write happens. -/
theorem c9_absent_name_noop (store : List JsObj) (nm : String) (u : JsObj)
    (h : ∀ r ∈ store, (normName r).isSome ∧ normName r ≠ some (normStr nm)) :
    updateRecipe store nm u = .ok (false, store) ∧
      deleteRecipe store nm = .ok (false, store) := by
  constructor
  · unfold updateRecipe
    rw [findIndexName_none store nm h]
  · unfold deleteRecipe
    rw [filterNameNe_eq store nm fun r hr => (h r hr).1]
    have hfil : store.filter (fun r => normName r != some (normStr nm))
        = store := by
      apply List.filter_eq_self.mpr
      intro r hr
      exact bne_iff_ne.mpr (h r hr).2
    rw [hfil]
    simp

/-- Witness for C9: updating or deleting "Tacos" in a store holding only
"Pasta" fails and changes nothing. -/
theorem c9_witness :
    updateRecipe [pastaStored] "Tacos" [("category", .vstr "Dinner")]
        = .ok (false, [pastaStored]) ∧
      deleteRecipe [pastaStored] "Tacos" = .ok (false, [pastaStored]) :=
  c9_absent_name_noop [pastaStored] "Tacos" [("category", .vstr "Dinner")]
    (by decide)

/-- C10: with string names throughout, `deleteRecipe` persists exactly the
filter keeping the records whose trimmed lowercased name differs from the
argument's — every duplicate match is removed at once and survivors keep
their relative order — and returns `true` exactly when some record went. -/
theorem c10_delete_filters_all (store : List JsObj) (nm : String)
    (h : ∀ r ∈ store, (normName r).isSome) :
    deleteRecipe store nm =
      .ok (((store.filter fun r => normName r != some (normStr nm)).length
              != store.length),
        store.filter fun r => normName r != some (normStr nm)) := by
  unfold deleteRecipe
  rw [filterNameNe_eq store nm h]
  by_cases hlen : (store.filter
      fun r => normName r != some (normStr nm)).length = store.length
  · have hfil : store.filter (fun r => normName r != some (normStr nm))
        = store :=
      (List.filter_sublist store).eq_of_length hlen
    simp [hlen, hfil]
  · simp [hlen]

/-- A second record normalizing to "pasta" (name needs trimming and
lowercasing to see the duplicate). -/
def pastaVariant : JsObj :=
  [("name", .vstr "  PASTA "),
   ("ingredients", .varr []),
   ("instructions", .vstr "Again."),
   ("category", .vstr ""),
   ("tags", .varr [])]

/-- Witness for C10: deleting "Pasta" removes both records that normalize to
"pasta" and keeps "Tacos" in place. -/
theorem c10_witness :
    deleteRecipe [pastaStored, tacoStored, pastaVariant] "Pasta"
      = .ok (true, [tacoStored]) :=
  (c10_delete_filters_all [pastaStored, tacoStored, pastaVariant] "Pasta"
    (by decide)).trans (by rfl)

/-! ## Invariant preservation lemmas -/

theorem normName_of_lookup (r : JsObj) (s : String)
    (h : lookupKey r "name" = some (.vstr s)) :
    normName r = some (normStr s) := by
  unfold normName getProp
  rw [h]
  rfl

theorem normName_congr (r₁ r₂ : JsObj)
    (h : lookupKey r₁ "name" = lookupKey r₂ "name") :
    normName r₁ = normName r₂ := by
  unfold normName getProp
  rw [h]

theorem normName_eq_some (r : JsObj) (x : String) (h : normName r = some x) :
    ∃ c, lookupKey r "name" = some (.vstr c) ∧ normStr c = x := by
  unfold normName getProp at h
  cases hl : lookupKey r "name" with
  | none =>
    rw [hl] at h
    dsimp only [Option.getD] at h
    cases h
  | some w =>
    rw [hl] at h
    dsimp only [Option.getD] at h
    cases w with
    | vstr s =>
      injection h with h'
      exact ⟨s, rfl, h'⟩
    | vundefined => exact Option.noConfusion h
    | vnull => exact Option.noConfusion h
    | vbool b => exact Option.noConfusion h
    | vnum n => exact Option.noConfusion h
    | varr xs => exact Option.noConfusion h

/-- `UniqueNames`, phrased on the list of normalized names. -/
theorem uniqueNames_iff (store : List JsObj) :
    UniqueNames store ↔
      (∀ o ∈ store.map normName, o.isSome) ∧ (store.map normName).Nodup := by
  unfold UniqueNames
  rw [List.forall_mem_map]

theorem addRecipe_preserves_uniqueNames (store : List JsObj) (r : JsObj)
    (b : Bool) (new : List JsObj) (hu : UniqueNames store)
    (h : addRecipe store r = .ok (b, new)) : UniqueNames new := by
  rcases addRecipe_ok store r b new h with ⟨-, hnew⟩ | ⟨-, v, hsnm, hval, hnew⟩
  · subst hnew
    exact hu
  · subst hnew
    obtain ⟨s, hvs, hcopy⟩ := validateRecipe_name r v hval
    have hvsome : normName v = some (normStr s) := normName_of_lookup v s hvs
    have hnotin : normName v ∉ store.map normName := by
      intro hmem
      obtain ⟨x, hx, hxe⟩ := List.mem_map.mp hmem
      obtain ⟨rn, cn, hxr, hrc, hne⟩ := someNameMatches_false store r hsnm x hx
      obtain ⟨c, hlc, hnc⟩ := normName_eq_some r cn hrc
      have hsc : s = c := hcopy c hlc
      rw [hxe, hvsome] at hxr
      injection hxr with hsr
      exact hne (by rw [← hsr, hsc, hnc])
    constructor
    · intro x hx
      rcases List.mem_append.mp hx with hx' | hx'
      · exact hu.1 x hx'
      · rw [List.mem_singleton] at hx'
        subst hx'
        rw [hvsome]
        rfl
    · rw [List.map_append, List.nodup_append]
      refine ⟨hu.2, List.nodup_singleton _, ?_⟩
      intro a ha hb
      rw [List.map_singleton, List.mem_singleton] at hb
      subst hb
      exact hnotin ha

theorem deleteRecipe_preserves_uniqueNames (store : List JsObj) (nm : String)
    (b : Bool) (new : List JsObj) (hu : UniqueNames store)
    (h : deleteRecipe store nm = .ok (b, new)) : UniqueNames new := by
  unfold deleteRecipe at h
  rw [filterNameNe_eq store nm hu.1] at h
  dsimp only at h
  by_cases hlen : (store.filter
      fun r => normName r != some (normStr nm)).length = store.length
  · rw [if_pos hlen] at h
    cases h
    exact hu
  · rw [if_neg hlen] at h
    cases h
    constructor
    · intro x hx
      exact hu.1 x (List.mem_of_mem_filter hx)
    · exact List.Nodup.sublist ((List.filter_sublist store).map normName) hu.2

theorem map_set_self {α β : Type} (l : List α) (i : Nat) (f : α → β) (d : α)
    (h : i < l.length) : (l.map f).set i (f (l.getD i d)) = l.map f := by
  have h' : i < (l.map f).length := by
    rw [List.length_map]
    exact h
  calc (l.map f).set i (f (l.getD i d))
      = (l.map f).set i ((l.map f).getD i (f d)) := by
        rw [List.getD_eq_getElem l d h, List.getD_eq_getElem (l.map f) (f d) h',
          List.getElem_map]
    _ = l.map f := set_getD_self _ _ _ h'

theorem updateRecipe_preserves_uniqueNames (store : List JsObj) (nm : String)
    (u : JsObj) (b : Bool) (new : List JsObj) (hu : UniqueNames store)
    (h : updateRecipe store nm u = .ok (b, new))
    (hcond : lookupKey (allowedUpdates u) "name" = none ∨
      ∃ s, lookupKey (allowedUpdates u) "name" = some (.vstr s) ∧
        (normStr s = normStr nm ∨ some (normStr s) ∉ store.map normName)) :
    UniqueNames new := by
  cases b with
  | false =>
    rw [updateRecipe_ok_false store nm u new h]
    exact hu
  | true =>
    obtain ⟨i, hfind, hlt, hnm, hnew⟩ := updateRecipe_ok_true store nm u new h
    subst hnew
    have hmap : (store.set i
          (spreadMerge (store.getD i []) (allowedUpdates u))).map normName
        = (store.map normName).set i
            (normName (spreadMerge (store.getD i []) (allowedUpdates u))) :=
      List.map_set
    have hmerge := lookupKey_spreadMerge (store.getD i []) (allowedUpdates u)
      "name"
    rcases hcond with hnone | ⟨s, hsome, hfresh⟩
    · have hsame : normName (spreadMerge (store.getD i []) (allowedUpdates u))
          = normName (store.getD i []) := by
        apply normName_congr
        rw [hmerge, hnone]
      rw [(uniqueNames_iff _)]
      rw [hmap, hsame, map_set_self store i normName ([] : JsObj) hlt]
      exact (uniqueNames_iff store).mp hu
    · have hsets : normName (spreadMerge (store.getD i []) (allowedUpdates u))
          = some (normStr s) := by
        apply normName_of_lookup
        rw [hmerge, hsome]
      rcases hfresh with hsamenm | hnotin
      · have hsame : normName (spreadMerge (store.getD i [])
              (allowedUpdates u)) = normName (store.getD i []) := by
          rw [hsets, hnm, hsamenm]
        rw [(uniqueNames_iff _)]
        rw [hmap, hsame, map_set_self store i normName ([] : JsObj) hlt]
        exact (uniqueNames_iff store).mp hu
      · rw [(uniqueNames_iff _)]
        rw [hmap, hsets]
        constructor
        · intro o ho
          rcases List.mem_or_eq_of_mem_set ho with ho' | ho'
          · exact ((uniqueNames_iff store).mp hu).1 o ho'
          · rw [ho']
            rfl
        · exact nodup_set_of_not_mem _ i _ hu.2 hnotin

/-- C2, amended: the uniqueness invariant is preserved by every `addRecipe`
and `deleteRecipe` call that returns, and by every `updateRecipe` call whose
update set carries no `name` — or a name that, normalized, is the target's
own or occurs nowhere in the collection.  (The counterexample shows an
update renaming a recipe onto another existing name breaks the invariant.) -/
theorem c2_uniqueness_invariant :
    (∀ store r b new, UniqueNames store →
      addRecipe store r = .ok (b, new) → UniqueNames new) ∧
    (∀ store nm b new, UniqueNames store →
      deleteRecipe store nm = .ok (b, new) → UniqueNames new) ∧
    (∀ store nm u b new, UniqueNames store →
      updateRecipe store nm u = .ok (b, new) →
      (lookupKey (allowedUpdates u) "name" = none ∨
        ∃ s, lookupKey (allowedUpdates u) "name" = some (.vstr s) ∧
          (normStr s = normStr nm ∨ some (normStr s) ∉ store.map normName)) →
      UniqueNames new) :=
  ⟨fun store r b new hu h =>
      addRecipe_preserves_uniqueNames store r b new hu h,
   fun store nm b new hu h =>
      deleteRecipe_preserves_uniqueNames store nm b new hu h,
   fun store nm u b new hu h hc =>
      updateRecipe_preserves_uniqueNames store nm u b new hu h hc⟩

/-- The Tacos candidate, validated to `tacoStored`. -/
def tacoInput : JsObj :=
  [("name", .vstr "Tacos"),
   ("ingredients", .varr [.vstr "tortilla"]),
   ("instructions", .vstr "Fill.")]

/-- `pastaStored` renamed to the fresh name "Spaghetti". -/
def pastaSpag : JsObj :=
  [("name", .vstr "Spaghetti"),
   ("ingredients", .varr [.vstr "noodles", .vstr "sauce"]),
   ("instructions", .vstr "Boil and mix."),
   ("category", .vstr ""),
   ("tags", .varr [])]

/-- Witness for C2 at concrete runs of all three operations. -/
theorem c2_witness :
    UniqueNames [pastaStored, tacoStored] ∧ UniqueNames [tacoStored] ∧
      UniqueNames [pastaSpag, tacoStored] :=
  ⟨c2_uniqueness_invariant.1 [pastaStored] tacoInput true
      [pastaStored, tacoStored] (by decide) rfl,
   c2_uniqueness_invariant.2.1 [pastaStored, tacoStored] "Pasta" true
      [tacoStored] (by decide) rfl,
   c2_uniqueness_invariant.2.2 [pastaStored, tacoStored] "Pasta"
      [("name", .vstr "Spaghetti")] true [pastaSpag, tacoStored] (by decide)
      rfl (Or.inr ⟨"Spaghetti", rfl, Or.inr (by decide)⟩)⟩
